import Mathlib

/-!
Verification of the Laminar CI scheduler core (src/laminar.cpp) against its
natural-language specification.

The C++ source is shallowly embedded below. Scheduler state that in C++ lives
behind `shared_ptr<Node>` objects is modelled with an explicit heap (a list of
`Node` records) plus a registry mapping node names to heap indices, so that a
node removed from the registry by a configuration reload keeps existing while
in-flight runs still reference it, exactly as `shared_ptr` aliasing behaves.

Filesystem calls (`fs::exists`, `fs::create_directory`, `fs::remove_all`, ...)
are external collaborators; they are modelled by an oracle of boolean-valued
functions on path strings. Creating a directory does not update the oracle:
each scheduler callback is evaluated against one filesystem snapshot, which is
all the claims under study observe.

Declarations `Node`, `Run`, and the default values of new nodes come from
`laminar.h`, which is not under src/; those parts are modelled from the spec
(section 3, DATA MODEL) and are marked in their doc comments.
-/

/-- Association-list lookup, modelling `std::map::find`. -/
def alookup {α : Type} (m : List (String × α)) (k : String) : Option α :=
  match m with
  | [] => none
  | (k', v) :: rest => if k' == k then some v else alookup rest k

/-- Association-list update-or-insert, modelling `std::map::operator[]` assignment. -/
def aset {α : Type} (m : List (String × α)) (k : String) (v : α) : List (String × α) :=
  match m with
  | [] => [(k, v)]
  | (k', v') :: rest => if k' == k then (k', v) :: rest else (k', v') :: aset rest k v

/-- Sorted insertion keeping `std::map` name order; no overwrite when the key
is present (`std::map::emplace`). -/
def mapInsert (m : List (String × Nat)) (k : String) (v : Nat) : List (String × Nat) :=
  match m with
  | [] => [(k, v)]
  | (k', v') :: rest =>
    if k == k' then (k', v') :: rest
    else if k < k' then (k, v) :: (k', v') :: rest
    else (k', v') :: mapInsert rest k v

/-- Worker node. Modelled from the spec: the `Node` declaration lives in
`laminar.h` (not under src/); per spec section 3 a node has a name, an integer
executor capacity, an integer busy count and a tag set, and a freshly
constructed node has busy count 0 and no tags. -/
structure Node where
  name : String
  numExecutors : Int
  busyExecutors : Int
  tags : List String
deriving DecidableEq

/-- One build attempt. Modelled from the spec: the `Run` declaration lives in
`run.h` (not under src/). Only the fields laminar.cpp reads or writes and some
claim observes are carried; times, environment files, the timeout token and
the live log buffer of the full object are not observed by any claim on the
scheduler state and are left out. A queued run has `node = none`. -/
structure Run where
  name : String
  params : List (String × String)
  parentName : String
  parentBuild : Nat
  reasonMsg : String
  scripts : List String
  runDir : String
  node : Option Nat
  build : Nat
deriving DecidableEq

/-- Status events laminar.cpp pushes to subscribers; only the fields claims
inspect are carried (`job_started` keeps its `queueIndex` payload). -/
inductive Event where
  | job_queued (name : String)
  | job_started (name : String) (number : Nat) (queueIndex : Int)
  | job_completed (name : String) (number : Nat)
deriving DecidableEq

/-- Filesystem snapshot oracle: answers of `fs::exists`/`fs::is_directory`,
of `fs::create_directory`/`fs::create_directories`, and of `fs::remove_all`
for each path string. -/
structure FsOracle where
  pathExists : String → Bool
  createOk : String → Bool
  removeOk : String → Bool

/-- The scheduler state of the `Laminar` object: node heap and registry,
queue, active set, per-job build counters, job tags, the `builds` table rows
(name and number columns; the log columns are studied separately below) and
the emitted event stream. -/
structure LState where
  homeDir : String
  heap : List Node
  nodes : List (String × Nat)
  queuedJobs : List Run
  activeJobs : List Run
  buildNums : List (String × Nat)
  jobTags : List (String × List String)
  rows : List (String × Nat)
  events : List Event
deriving DecidableEq

/-- Parsed node configuration file: `EXECUTORS` (default 6 applied by the
parser wrapper) and the `TAGS` value, `none` when the TAGS string is empty or
absent, `some ts` when nonempty and comma-split into `ts`. -/
structure NodeConf where
  name : String
  executors : Int
  tags : Option (List String)

/-- Parsed job configuration file (`TAGS` only, same convention). -/
structure JobConf where
  name : String
  tags : Option (List String)

/-- Admission policy, `Laminar::nodeCanQueue` (laminar.cpp:536-557). -/
def nodeCanQueue (jobTags : List (String × List String)) (node : Node) (run : Run) : Bool :=
  if node.busyExecutors ≥ node.numExecutors then false
  else if node.tags.length == 0 then true
  else
    match alookup jobTags run.name with
    | none => false
    | some ts => ts.any (fun t => node.tags.contains t)

/-- First registry node accepting `run`, in `std::map` iteration order
(the `for(auto& sn : nodes)` loop head of `Laminar::tryStartRun`). -/
def acceptingNode (s : LState) (run : Run) : Option (String × Nat) :=
  s.nodes.find? (fun p =>
    ((s.heap.get? p.2).map (fun nd => nodeCanQueue s.jobTags nd run)).getD false)

/-- Workspace init script prepending: the `.init` branch of the workspace
block of `Laminar::tryStartRun` (laminar.cpp:566-576), taken when the
workspace did not exist and was created. -/
def withInitScript (fs : FsOracle) (cfgDir : String) (run : Run) : Run :=
  if fs.pathExists (cfgDir ++ "/jobs/" ++ run.name ++ ".init")
  then { run with scripts := run.scripts ++ [cfgDir ++ "/jobs/" ++ run.name ++ ".init"] }
  else run

/-- Script list composed on the success path of `Laminar::tryStartRun`
(laminar.cpp:605-625): optional global/node/job before scripts, the mandatory
`.run` script, and optional job/node/global after scripts. -/
def composedScripts (fs : FsOracle) (cfgDir nname jname : String) : List String :=
  (if fs.pathExists (cfgDir ++ "/before") then [cfgDir ++ "/before"] else [])
  ++ (if fs.pathExists (cfgDir ++ "/nodes/" ++ nname ++ ".before")
      then [cfgDir ++ "/nodes/" ++ nname ++ ".before"] else [])
  ++ (if fs.pathExists (cfgDir ++ "/jobs/" ++ jname ++ ".before")
      then [cfgDir ++ "/jobs/" ++ jname ++ ".before"] else [])
  ++ [cfgDir ++ "/jobs/" ++ jname ++ ".run"]
  ++ (if fs.pathExists (cfgDir ++ "/jobs/" ++ jname ++ ".after")
      then [cfgDir ++ "/jobs/" ++ jname ++ ".after"] else [])
  ++ (if fs.pathExists (cfgDir ++ "/nodes/" ++ nname ++ ".after")
      then [cfgDir ++ "/nodes/" ++ nname ++ ".after"] else [])
  ++ (if fs.pathExists (cfgDir ++ "/after") then [cfgDir ++ "/after"] else [])

/-- Commit point of `Laminar::tryStartRun` (laminar.cpp:605-705): compose the
script list, increment the chosen node's busy count, stamp node and build
number on the run, advance the per-job build counter and emit `job_started`
with the given queue index. Environment-file composition, the timeout timer,
`startedAt`, `lastResult` and the started-signal fulfilment (laminar.cpp:
627-660, 697-703) touch only external collaborators or run fields no claim
observes and are not carried. -/
def commitStartRun (fs : FsOracle) (s : LState) (run2 : Run) (queueIndex : Int)
    (nname : String) (nid : Nat) (nd : Node) (buildNum : Nat) : Bool × LState × Run :=
  let cfgDir := s.homeDir ++ "/cfg"
  let run3 := { run2 with
                scripts := run2.scripts ++ composedScripts fs cfgDir nname run2.name,
                node := some nid,
                build := buildNum }
  (true,
   { s with
     heap := s.heap.set nid { nd with busyExecutors := nd.busyExecutors + 1 },
     buildNums := aset s.buildNums run2.name buildNum,
     events := s.events ++ [Event.job_started run2.name buildNum queueIndex] },
   run3)

/-- Failure test of the run-directory block of `Laminar::tryStartRun`
(laminar.cpp:578-593): a stale run directory is removed and `createWorkdir`
is cleared when that removal fails (the stale directory is then reused);
the block fails exactly when `createWorkdir` holds and `create_directory`
fails. The surrounding blocks abort the startup with `break` on failure,
returning false; mutations already applied to the run object (init script,
`runDir`) are kept, as in C++ where the queued `shared_ptr<Run>` was mutated
in place. -/
def rundirFail (fs : FsOracle) (rd : String) : Bool :=
  (if fs.pathExists rd then fs.removeOk rd else true) && !fs.createOk rd

/-- Failure test of the archive-directory block (laminar.cpp:597-603):
`is_directory` false and `create_directories` failed. -/
def archiveFail (fs : FsOracle) (archive : String) : Bool :=
  !fs.pathExists archive && !fs.createOk archive

/-- Run-directory and archive-directory blocks of `Laminar::tryStartRun`,
continued (see the doc comment above `rundirFail`). -/
def makeRunDirs (fs : FsOracle) (s : LState) (run1 : Run) (queueIndex : Int)
    (nname : String) (nid : Nat) (nd : Node) : Bool × LState × Run :=
  let buildNum := (alookup s.buildNums run1.name).getD 0 + 1
  let rd := s.homeDir ++ "/run/" ++ run1.name ++ "/" ++ toString buildNum
  if rundirFail fs rd then (false, s, run1)
  else
    let run2 := { run1 with runDir := rd }
    let archive := s.homeDir ++ "/archive/" ++ run1.name ++ "/" ++ toString buildNum
    if archiveFail fs archive then (false, s, run2)
    else commitStartRun fs s run2 queueIndex nname nid nd buildNum

/-- `Laminar::tryStartRun` (laminar.cpp:559-709): find the first accepting
node; ensure the workspace exists (creating it, with optional init script,
and aborting on creation failure); then create the per-build directories and
commit the start. Every failure path leaves the scheduler state unchanged and
reports false. -/
def tryStartRun (fs : FsOracle) (s : LState) (run : Run) (queueIndex : Int) :
    Bool × LState × Run :=
  match acceptingNode s run with
  | none => (false, s, run)
  | some (nname, nid) =>
    match s.heap.get? nid with
    | none => (false, s, run)
    | some nd =>
      let cfgDir := s.homeDir ++ "/cfg"
      let ws := s.homeDir ++ "/run/" ++ run.name ++ "/workspace"
      if fs.pathExists ws then
        makeRunDirs fs s run queueIndex nname nid nd
      else if fs.createOk ws then
        makeRunDirs fs s (withInitScript fs cfgDir run) queueIndex nname nid nd
      else (false, s, run)

/-- Queue traversal of `Laminar::assignNewJobs` (laminar.cpp:711-721):
examine pending runs head to tail; a started run is moved to the active set
(the iterator keeps its position after `erase`), a run that could not start
stays and the position advances. The queue index handed to `tryStartRun` is
`std::distance(it, queuedJobs.begin())`; modelled from the spec design note
(the queue container is declared in laminar.h, not under src/) as the
negation of the current position, which is 0 or negative. -/
def assignLoop (fs : FsOracle) (s : LState) (pos : Nat) :
    List Run → LState × List Run
  | [] => (s, [])
  | r :: rest =>
    match tryStartRun fs s r (-(pos : Int)) with
    | (true, s1, r1) =>
      assignLoop fs { s1 with activeJobs := s1.activeJobs ++ [r1] } pos rest
    | (false, s1, r1) =>
      let (s2, ns) := assignLoop fs s1 (pos + 1) rest
      (s2, r1 :: ns)

/-- `Laminar::assignNewJobs` (laminar.cpp:711-721). -/
def assignNewJobs (fs : FsOracle) (s : LState) : LState :=
  let (s', ns) := assignLoop fs { s with queuedJobs := [] } 0 s.queuedJobs
  { s' with queuedJobs := ns }

/-- First character test `it->first[0] == '='` of `Laminar::queueJob`
(an empty C++ string reads as `'\0'` there, so the test is false). -/
def isMetaKey (k : String) : Bool :=
  match k.data with
  | [] => false
  | c :: _ => c == '='

/-- Value of an `=`-prefixed reserved parameter, empty when absent. -/
def metaValue (params : List (String × String)) (k : String) : String :=
  ((params.find? (fun p => p.1 == k)).map (fun p => p.2)).getD ""

/-- C `atoi` on the `=parentBuild` value, modelled on the claim-irrelevant
digits-only case (`atoi` of a non-numeric string is 0). -/
def atoiN (v : String) : Nat := v.toNat?.getD 0

/-- `Laminar::queueJob` (laminar.cpp:480-521): reject unknown jobs (no
`.run` script) with no state change; strip reserved `=`-prefixed keys into
run metadata (unknown ones dropped); append the run to the queue; emit
`job_queued`; trigger the admission loop. -/
def queueJob (fs : FsOracle) (s : LState) (name : String)
    (params : List (String × String)) : LState :=
  if !fs.pathExists (s.homeDir ++ "/cfg/jobs/" ++ name ++ ".run") then s
  else
    let run : Run :=
      { name := name,
        params := params.filter (fun p => !isMetaKey p.1),
        parentName := metaValue params "=parentJob",
        parentBuild := atoiN (metaValue params "=parentBuild"),
        reasonMsg := metaValue params "=reason",
        scripts := [],
        runDir := "",
        node := none,
        build := 0 }
    assignNewJobs fs
      { s with queuedJobs := s.queuedJobs ++ [run],
               events := s.events ++ [Event.job_queued name] }

/-- `Laminar::runFinished` (laminar.cpp:750-834) for the active run at index
`i`: decrement its node's busy count, insert the `builds` row, emit
`job_completed`, notify waiters (external), erase the run from the active
set, sweep old run directories (filesystem only, not carried) and re-run the
admission loop. Indices that do not name an active run with a valid node
reference cannot arise from the callback wiring and leave the state
unchanged. -/
def runFinished (fs : FsOracle) (s : LState) (i : Nat) : LState :=
  match s.activeJobs.get? i with
  | none => s
  | some r =>
    match r.node with
    | none => s
    | some nid =>
      match s.heap.get? nid with
      | none => s
      | some nd =>
        assignNewJobs fs
          { s with
            heap := s.heap.set nid { nd with busyExecutors := nd.busyExecutors - 1 },
            rows := s.rows ++ [(r.name, r.build)],
            events := s.events ++ [Event.job_completed r.name r.build],
            activeJobs := s.activeJobs.eraseIdx i }

/-- Per-file body of the node scan loop of `Laminar::loadConfiguration`
(laminar.cpp:413-436): reuse the existing `Node` object when the name is
known, otherwise allocate a fresh one; set name and `EXECUTORS`; replace the
tag set only when the `TAGS` value is nonempty. -/
def upsertNode (s : LState) (c : NodeConf) : LState :=
  match alookup s.nodes c.name with
  | some nid =>
    match s.heap.get? nid with
    | none => s
    | some nd =>
      let nd1 : Node :=
        { nd with name := c.name, numExecutors := c.executors,
                  tags := match c.tags with
                          | some ts => ts
                          | none => nd.tags }
      { s with heap := s.heap.set nid nd1 }
  | none =>
    let newNode : Node :=
      { name := c.name, numExecutors := c.executors, busyExecutors := 0,
        tags := (c.tags).getD [] }
    { s with heap := s.heap ++ [newNode],
             nodes := mapInsert s.nodes c.name s.heap.length }

/-- `Laminar::loadConfiguration` (laminar.cpp:404-478): upsert every node
present in the scan; drop registry entries whose file disappeared, keeping
the synthesized default (empty-name) node when the scan is empty; synthesize
the default node (capacity 6, no tags) if the registry ended up empty; then
replace job tag sets for job files with a nonempty `TAGS` value. -/
def loadConfiguration (scan : List NodeConf) (jobScan : List JobConf)
    (s : LState) : LState :=
  let s1 := scan.foldl upsertNode s
  let known := scan.map (fun c => c.name)
  let s2 := { s1 with nodes := s1.nodes.filter (fun p =>
      (p.1 == "" && known.length == 0) || known.contains p.1) }
  let s3 :=
    if s2.nodes.isEmpty then
      { s2 with heap := s2.heap ++ [{ name := "", numExecutors := 6,
                                      busyExecutors := 0, tags := [] }],
                nodes := mapInsert s2.nodes "" s2.heap.length }
    else s2
  jobScan.foldl (fun st jc =>
    match jc.tags with
    | some ts => { st with jobTags := aset st.jobTags jc.name ts }
    | none => st) s3

/-- `Laminar::setParam` (laminar.cpp:120-126) on the active list: update the
parameter map of the run identified by job name and build number when it is
active, report whether it was found. -/
def setParamList (job : String) (num : Nat) (k v : String) :
    List Run → Option (List Run)
  | [] => none
  | r :: rest =>
    if r.name == job && r.build == num then
      some ({ r with params := aset r.params k v } :: rest)
    else
      (setParamList job num k v rest).map (fun l => r :: l)

/-- `Laminar::setParam` (laminar.cpp:120-126). -/
def setParam (s : LState) (job : String) (num : Nat) (k v : String) :
    Bool × LState :=
  match setParamList job num k v s.activeJobs with
  | some l => (true, { s with activeJobs := l })
  | none => (false, s)

/-- Scheduler callbacks that mutate state between suspension points: an
enqueue request (`Laminar::queueJob`), a terminal transition
(`Laminar::runFinished` for an active-run index), a configuration reload
(`Laminar::notifyConfigChanged`, laminar.cpp:523-528, which reloads and then
re-runs admission) and a bare admission pass. Each carries the filesystem
snapshot it runs against. -/
inductive Op where
  | enqueue (name : String) (params : List (String × String)) (fs : FsOracle)
  | finish (i : Nat) (fs : FsOracle)
  | reload (scan : List NodeConf) (jobScan : List JobConf) (fs : FsOracle)
  | assign (fs : FsOracle)

/-- Apply one scheduler callback. -/
def applyOp (s : LState) : Op → LState
  | .enqueue n p fs => queueJob fs s n p
  | .finish i fs => runFinished fs s i
  | .reload sc js fs => assignNewJobs fs (loadConfiguration sc js s)
  | .assign fs => assignNewJobs fs s

/-- Apply a sequence of scheduler callbacks. -/
def runOps (s : LState) : List Op → LState
  | [] => s
  | op :: rest => runOps (applyOp s op) rest

/-- State of a `Laminar` object before its constructor scans the
configuration: no nodes, nothing queued, nothing active. The constructor's
initial `loadConfiguration` is the first `Op.reload` of a run. -/
def emptyState : LState :=
  { homeDir := "", heap := [], nodes := [], queuedJobs := [], activeJobs := [],
    buildNums := [], jobTags := [], rows := [], events := [] }

/-- Filesystem snapshot on which every query succeeds: all paths exist and
all creations and removals succeed. -/
def fsAllOk : FsOracle :=
  { pathExists := fun _ => true, createOk := fun _ => true, removeOk := fun _ => true }

/-- Modulus of the C `uint` arithmetic in `Laminar::sendStatus`. -/
def UINT_MOD : Nat := 4294967296

/-- The `pages` value of a JOB-scope status snapshot,
`(nRuns-1) / runsPerPage + 1` with `runsPerPage = 10` computed on `uint`
(`Laminar::sendStatus`, laminar.cpp:231-240). `nRuns` is the row count
`SELECT COUNT(*)`, a `uint`, so the subtraction wraps modulo 2^32. -/
def sendStatusJobPages (nRuns : Nat) : Nat :=
  ((nRuns + (UINT_MOD - 1)) % UINT_MOD) / 10 + 1

/-- Abstract deflate codec (zlib's `compress`/`uncompress` are external
collaborators): `compress` may fail (e.g. the output does not fit the
input-sized buffer); `uncompress` receives the destination budget
(`destLen`) and may fail (corrupt or non-deflate input). -/
structure LogCodec where
  compress : List Nat → Option (List Nat)
  uncompress : List Nat → Nat → Option (List Nat)

/-- A codec is well formed when decompressing a successful compression under
a sufficient budget returns the original bytes, and decompression output
never exceeds its budget. -/
def CodecWF (z : LogCodec) : Prop :=
  (∀ l zb budget, z.compress l = some zb → l.length ≤ budget →
     z.uncompress zb budget = some l) ∧
  (∀ b budget out, z.uncompress b budget = some out → out.length ≤ budget)

/-- Log persistence at terminal transition (`Laminar::runFinished`,
laminar.cpp:756-774): logs of length ≥ 1024 (`COMPRESS_LOG_MIN_SIZE`) are
compressed when the codec succeeds, otherwise stored raw; `outputLen` is
always the raw length. -/
def persistLog (z : LogCodec) (log : List Nat) : List Nat × Nat :=
  let logsize := log.length
  if logsize ≥ 1024 then
    match z.compress log with
    | some zipped => (zipped, logsize)
    | none => (log, logsize)
  else (log, logsize)

/-- LOG-scope read path for a finished run (`Laminar::sendStatus`,
laminar.cpp:146-168): a stored `outputLen ≥ 1024` is treated as compressed
and inflated into a `sz+1`-byte zero-filled buffer whose whole content is
sent (so a successful inflate of `sz` bytes is delivered with trailing
padding); on inflate failure nothing is sent; a stored `outputLen < 1024` is
sent raw. -/
def readLog (z : LogCodec) (blob : List Nat) (sz : Nat) : Option (List Nat) :=
  if sz ≥ 1024 then
    match z.uncompress blob sz with
    | some out => some (out ++ List.replicate (sz + 1 - out.length) 0)
    | none => none
  else some blob

/-- Outcome of one executor step: the stdout/stderr chunks drained from the
child's pipe, then the reaped exit status. -/
structure StepResult where
  chunks : List String
  status : Int

/-- Events of one run as a subscriber observes them. -/
inductive RunEvent where
  | logChunk (bytes : String)
  | reaped (status : Int)
  | completed
deriving DecidableEq

/-- Observable trace of `Laminar::handleRunStep` chained into
`Laminar::runFinished` (laminar.cpp:701-703, 723-748, 776-800): per step all
pipe output is drained and broadcast, only then the child is reaped;
modelled from the spec for the continuation decision of `Run::step` (run.cpp
is not under src/): a zero status proceeds to the next script, a nonzero
status transitions to terminal; when no scripts remain, `runFinished` emits
`job_completed`. -/
def handleRunTrace : List StepResult → List RunEvent
  | [] => [RunEvent.completed]
  | st :: rest =>
    st.chunks.map RunEvent.logChunk ++
      (RunEvent.reaped st.status ::
        (if st.status = 0 then handleRunTrace rest else [RunEvent.completed]))

/-- Looking up the key just set with `aset` yields the new value. -/
theorem alookup_aset_self {α : Type} (m : List (String × α)) (k : String) (v : α) :
    alookup (aset m k v) k = some v := by
  induction m with
  | nil => simp [aset, alookup]
  | cons p rest ih =>
    by_cases h : p.1 == k
    · simp [aset, alookup, h]
    · simp [aset, alookup, h, ih]

/-- `aset` leaves other keys unchanged. -/
theorem alookup_aset_ne {α : Type} (m : List (String × α)) (k k' : String) (v : α)
    (h : k ≠ k') : alookup (aset m k v) k' = alookup m k' := by
  induction m with
  | nil => simp [aset, alookup, h]
  | cons p rest ih =>
    by_cases hp : p.1 == k
    · have : p.1 = k := by simpa using hp
      simp [aset, alookup, hp, this, h]
    · simp [aset, alookup, hp, ih]

/-- C1: `nodeCanQueue(N, R)` accepts exactly when N has a free executor and
either N has no tags or R's job shares a tag with N; a job with no tags
(no nonempty tag set registered for it) is rejected by any tagged node. -/
theorem nodeCanQueue_correct (jt : List (String × List String)) (nd : Node) (r : Run) :
    nodeCanQueue jt nd r = true ↔
      (nd.busyExecutors < nd.numExecutors ∧
        (nd.tags = [] ∨ ∃ t ∈ (alookup jt r.name).getD [], t ∈ nd.tags)) := by
  unfold nodeCanQueue
  by_cases hbusy : nd.busyExecutors ≥ nd.numExecutors
  · simp only [hbusy, if_true]
    constructor
    · intro h; cases h
    · rintro ⟨hlt, -⟩; omega
  · have hlt : nd.busyExecutors < nd.numExecutors := by omega
    by_cases htags : nd.tags = []
    · simp [hbusy, htags, hlt]
    · have hlen : ¬ (nd.tags.length == 0) = true := by
        simp [List.length_eq_zero, htags]
      cases hjt : alookup jt r.name with
      | none => simp [hbusy, hlen, hjt, htags]
      | some ts =>
        simp [hbusy, hlen, hjt, htags, hlt, List.any_eq_true, List.elem_iff]

/-- C10: the JOB-scope `pages` field is `(n-1)/10 + 1` in unsigned 32-bit
arithmetic: `ceiling(n/10)` for `n ≥ 1`, and 429496730 for `n = 0` where the
subtraction wraps. -/
theorem sendStatusJobPages_correct (n : Nat) (h : n < UINT_MOD) :
    (1 ≤ n → sendStatusJobPages n = (n + 9) / 10) ∧
      (n = 0 → sendStatusJobPages n = 429496730) := by
  unfold sendStatusJobPages UINT_MOD at *
  constructor
  · intro h1; omega
  · intro h0; subst h0; decide

/-- Closed instance of `sendStatusJobPages_correct` at `n = 25`. -/
theorem sendStatusJobPages_correct_witness :
    25 < UINT_MOD ∧
      ((1 ≤ 25 → sendStatusJobPages 25 = (25 + 9) / 10) ∧
        (25 = 0 → sendStatusJobPages 25 = 429496730)) :=
  ⟨by decide, sendStatusJobPages_correct 25 (by decide)⟩

/-- C6: the event trace of a run ends with its single `completed` event, so
every log chunk (and every recorded exit status) of the run strictly
precedes `job_completed`; no position of the trace holds a log chunk after a
`completed`. -/
theorem handleRunTrace_drain_before_complete (steps : List StepResult) :
    (∃ pre, handleRunTrace steps = pre ++ [RunEvent.completed] ∧
       ∀ e ∈ pre, e ≠ RunEvent.completed) ∧
      ∀ i j b, (handleRunTrace steps).get? i = some RunEvent.completed →
        (handleRunTrace steps).get? j = some (RunEvent.logChunk b) → j < i := by
  have main : ∃ pre, handleRunTrace steps = pre ++ [RunEvent.completed] ∧
      ∀ e ∈ pre, e ≠ RunEvent.completed := by
    induction steps with
    | nil => exact ⟨[], rfl, by simp⟩
    | cons st rest ih =>
      by_cases h0 : st.status = 0
      · obtain ⟨pre, hp, hne⟩ := ih
        refine ⟨st.chunks.map RunEvent.logChunk ++ RunEvent.reaped st.status :: pre, ?_, ?_⟩
        · simp [handleRunTrace, h0, hp]
        · intro e he
          rcases List.mem_append.mp he with hc | hr
          · obtain ⟨b, -, hb⟩ := List.mem_map.mp hc
            simp [← hb]
          · rcases List.mem_cons.mp hr with he1 | hr
            · simp [he1]
            · exact hne _ hr
      · refine ⟨st.chunks.map RunEvent.logChunk ++ [RunEvent.reaped st.status], ?_, ?_⟩
        · simp [handleRunTrace, h0]
        · intro e he
          rcases List.mem_append.mp he with hc | hr
          · obtain ⟨b, -, hb⟩ := List.mem_map.mp hc
            simp [← hb]
          · have he1 := List.mem_singleton.mp hr
            simp [he1]
  refine ⟨main, ?_⟩
  obtain ⟨pre, hp, hne⟩ := main
  intro i j b hi hj
  rw [hp] at hi hj
  have hipre : ¬ i < pre.length := by
    intro hlt
    rw [List.get?_append hlt] at hi
    exact hne _ (List.get?_mem hi) rfl
  have hi_eq : i = pre.length := by
    have hlen : i < pre.length + 1 := by
      have := List.get?_eq_some.mp hi
      simpa using this.1
    omega
  have hjpre : j < pre.length := by
    by_contra hge
    have hlen : j < pre.length + 1 := by
      have := List.get?_eq_some.mp hj
      simpa using this.1
    have : j = pre.length := by omega
    subst this
    rw [List.get?_append_right (by omega)] at hj
    simp at hj
  omega

/-- C5 counterexample codec: compression always fails (incompressible input)
and decompression always fails (the blob is not valid deflate data), as zlib
does on raw non-deflate bytes. -/
def failingCodec : LogCodec :=
  { compress := fun _ => none, uncompress := fun _ _ => none }

/-- A 1024-byte log of capital As (scenario S5 of the spec, shortened). -/
def log1024 : List Nat := List.replicate 1024 65

/-- C5 counterexample: for a well-formed codec whose compression fails on a
1024-byte log, the stored blob is raw with `outputLen = 1024`, the read path
then treats it as compressed, decompression fails and no bytes are returned,
so the round trip does not yield the original log. -/
theorem log_roundtrip_counterexample :
    CodecWF failingCodec ∧
      readLog failingCodec (persistLog failingCodec log1024).1
        (persistLog failingCodec log1024).2 = none ∧
      (none : Option (List Nat)) ≠ some log1024 := by
  refine ⟨⟨?_, ?_⟩, ?_, by simp⟩
  · intro l zb budget h
    simp [failingCodec] at h
  · intro b budget out h
    simp [failingCodec] at h
  · have hlen : log1024.length = 1024 := by
      rw [log1024, List.length_replicate]
    simp [persistLog, readLog, failingCodec, hlen]

/-- C5 amended: for a well-formed codec, a log of length < 1024 is stored raw
and read back exactly; a log of length ≥ 1024 whose compression succeeded is
read back as the original bytes followed by one padding zero byte (the read
buffer is allocated one byte larger than `outputLen` and sent whole). -/
theorem log_roundtrip_amended (z : LogCodec) (hwf : CodecWF z) (log : List Nat) :
    (log.length < 1024 →
       readLog z (persistLog z log).1 (persistLog z log).2 = some log) ∧
      (∀ zb, z.compress log = some zb → 1024 ≤ log.length →
        readLog z (persistLog z log).1 (persistLog z log).2 = some (log ++ [0])) := by
  constructor
  · intro hlen
    have hnot : ¬ log.length ≥ 1024 := by omega
    simp [persistLog, readLog, hnot]
  · intro zb hzb hlen
    have hge : log.length ≥ 1024 := hlen
    have hunc : z.uncompress zb log.length = some log :=
      hwf.1 log zb log.length hzb (le_refl _)
    simp [persistLog, readLog, hge, hzb, hunc]

/-- Identity codec: compression succeeds returning the input, decompression
returns the blob when it fits the budget. -/
def idCodec : LogCodec :=
  { compress := fun l => some l,
    uncompress := fun b budget => if b.length ≤ budget then some b else none }

/-- The identity codec is well formed. -/
theorem idCodec_wf : CodecWF idCodec := by
  constructor
  · intro l zb budget h hb
    simp [idCodec] at h ⊢
    subst h
    simp [hb]
  · intro b budget out h
    simp [idCodec] at h
    rcases h with ⟨hb, rfl⟩
    exact hb

/-- Closed instance of `log_roundtrip_amended`: the identity codec reads a
3-byte log back unchanged. -/
theorem log_roundtrip_amended_witness :
    readLog idCodec (persistLog idCodec [1, 2, 3]).1
      (persistLog idCodec [1, 2, 3]).2 = some [1, 2, 3] :=
  (log_roundtrip_amended idCodec idCodec_wf [1, 2, 3]).1 (by decide)

/-- When some run in the list matches, `setParamList` updates the first
matching run in place and leaves every other element unchanged. -/
theorem setParamList_some (job : String) (num : Nat) (k v : String)
    (l : List Run) (h : ∃ r ∈ l, r.name = job ∧ r.build = num) :
    ∃ i r, l.get? i = some r ∧ r.name = job ∧ r.build = num ∧
      setParamList job num k v l =
        some (l.set i { r with params := aset r.params k v }) := by
  induction l with
  | nil => simp at h
  | cons r rest ih =>
    by_cases hm : r.name == job && r.build == num
    · have hm' : r.name = job ∧ r.build = num := by simpa using hm
      exact ⟨0, r, rfl, hm'.1, hm'.2, by simp [setParamList, hm]⟩
    · have hrest : ∃ r' ∈ rest, r'.name = job ∧ r'.build = num := by
        rcases h with ⟨r', hr', hp⟩
        rcases List.mem_cons.mp hr' with rfl | hmem
        · exact absurd (by simp [hp.1, hp.2]) hm
        · exact ⟨r', hmem, hp⟩
      obtain ⟨i, r', hget, hn, hb, hset⟩ := ih hrest
      exact ⟨i + 1, r', by simpa using hget, hn, hb, by simp [setParamList, hm, hset]⟩

/-- When no run in the list matches, `setParamList` reports failure. -/
theorem setParamList_none (job : String) (num : Nat) (k v : String)
    (l : List Run) (h : ∀ r ∈ l, ¬(r.name = job ∧ r.build = num)) :
    setParamList job num k v l = none := by
  induction l with
  | nil => rfl
  | cons r rest ih =>
    have hm : ¬ (r.name == job && r.build == num) = true := by
      intro hb
      exact h r (List.mem_cons_self r rest) (by simpa using hb)
    simp [setParamList, hm, ih fun r' hr' => h r' (List.mem_cons_of_mem r hr')]

/-- C9: `setParam(J, B, K, V)` returns true and rewrites exactly the matched
active run's parameter map (every other piece of scheduler state equal) when
`(J, B)` names an active run, and returns false with the state identical
otherwise. -/
theorem setParam_correct (s : LState) (job : String) (num : Nat) (k v : String) :
    ((∃ r ∈ s.activeJobs, r.name = job ∧ r.build = num) →
       (setParam s job num k v).1 = true ∧
       ∃ i r, s.activeJobs.get? i = some r ∧ r.name = job ∧ r.build = num ∧
         (setParam s job num k v).2 =
           { s with activeJobs :=
               s.activeJobs.set i { r with params := aset r.params k v } } ∧
         alookup (aset r.params k v) k = some v) ∧
    ((∀ r ∈ s.activeJobs, ¬(r.name = job ∧ r.build = num)) →
       setParam s job num k v = (false, s)) := by
  constructor
  · intro h
    obtain ⟨i, r, hget, hn, hb, hset⟩ := setParamList_some job num k v s.activeJobs h
    refine ⟨by simp [setParam, hset], i, r, hget, hn, hb, by simp [setParam, hset],
      alookup_aset_self _ _ _⟩
  · intro h
    simp [setParam, setParamList_none job num k v s.activeJobs h]

/-- Concrete active run for the `setParam` instance. -/
def wRun : Run :=
  { name := "j", params := [], parentName := "", parentBuild := 0,
    reasonMsg := "", scripts := [], runDir := "", node := some 0, build := 1 }

/-- Concrete scheduler state with one active run of job `j`, build 1. -/
def wState : LState :=
  { homeDir := "", heap := [{ name := "", numExecutors := 6, busyExecutors := 1, tags := [] }],
    nodes := [("", 0)], queuedJobs := [], activeJobs := [wRun],
    buildNums := [("j", 1)], jobTags := [], rows := [], events := [] }

/-- Closed instance of `setParam_correct` on `wState`. -/
theorem setParam_correct_witness :
    (∃ r ∈ wState.activeJobs, r.name = "j" ∧ r.build = 1) ∧
      ((setParam wState "j" 1 "k" "v").1 = true ∧
        ∃ i r, wState.activeJobs.get? i = some r ∧ r.name = "j" ∧ r.build = 1 ∧
          (setParam wState "j" 1 "k" "v").2 =
            { wState with activeJobs :=
                wState.activeJobs.set i { r with params := aset r.params "k" "v" } } ∧
          alookup (aset r.params "k" "v") "k" = some "v") :=
  ⟨by decide, (setParam_correct wState "j" 1 "k" "v").1 (by decide)⟩

/-- `withInitScript` only appends to the script list. -/
theorem withInitScript_fields (fs : FsOracle) (cfgDir : String) (run : Run) :
    (withInitScript fs cfgDir run).name = run.name ∧
      (withInitScript fs cfgDir run).node = run.node ∧
      (withInitScript fs cfgDir run).build = run.build := by
  unfold withInitScript
  split <;> simp

/-- A found accepting node is a registry entry whose heap object accepts. -/
theorem acceptingNode_some (s : LState) (r : Run) (nname : String) (nid : Nat)
    (h : acceptingNode s r = some (nname, nid)) :
    (nname, nid) ∈ s.nodes ∧
      ∃ nd, s.heap.get? nid = some nd ∧ nodeCanQueue s.jobTags nd r = true := by
  refine ⟨List.mem_of_find?_eq_some h, ?_⟩
  have hp := List.find?_some h
  cases hg : s.heap.get? nid with
  | none => rw [hg] at hp; simp at hp
  | some nd =>
    rw [hg] at hp
    simp at hp
    exact ⟨nd, rfl, hp⟩

/-- If some registry node accepts the run, the registry scan finds one. -/
theorem acceptingNode_isSome (s : LState) (r : Run) (nname : String) (nid : Nat)
    (nd : Node) (hmem : (nname, nid) ∈ s.nodes) (hg : s.heap.get? nid = some nd)
    (hq : nodeCanQueue s.jobTags nd r = true) :
    acceptingNode s r ≠ none := by
  intro hnone
  have := List.find?_eq_none.mp hnone (nname, nid) hmem
  rw [hg] at this
  simp [hq] at this

/-- A failed `makeRunDirs` leaves the scheduler state unchanged. -/
theorem makeRunDirs_false (fs : FsOracle) (s : LState) (run1 : Run) (qi : Int)
    (nname : String) (nid : Nat) (nd : Node) (s' : LState) (r' : Run)
    (h : makeRunDirs fs s run1 qi nname nid nd = (false, s', r')) : s' = s := by
  unfold makeRunDirs at h
  simp only [] at h
  split at h
  · cases h; rfl
  · split at h
    · cases h; rfl
    · unfold commitStartRun at h
      cases h

/-- A successful `makeRunDirs` commits the start: busy count incremented,
build counter advanced, `job_started` appended, node stamped on the run. -/
theorem makeRunDirs_true (fs : FsOracle) (s : LState) (run1 : Run) (qi : Int)
    (nname : String) (nid : Nat) (nd : Node) (s' : LState) (r' : Run)
    (h : makeRunDirs fs s run1 qi nname nid nd = (true, s', r')) :
    s' = { s with
           heap := s.heap.set nid { nd with busyExecutors := nd.busyExecutors + 1 },
           buildNums := aset s.buildNums run1.name
             ((alookup s.buildNums run1.name).getD 0 + 1),
           events := s.events ++ [Event.job_started run1.name
             ((alookup s.buildNums run1.name).getD 0 + 1) qi] } ∧
      r'.node = some nid ∧ r'.name = run1.name ∧
      r'.build = (alookup s.buildNums run1.name).getD 0 + 1 := by
  unfold makeRunDirs at h
  simp only [] at h
  split at h
  · cases h
  · split at h
    · cases h
    · unfold commitStartRun at h
      cases h
      exact ⟨rfl, rfl, rfl, rfl⟩

/-- A failed `tryStartRun` leaves the scheduler state unchanged. -/
theorem tryStartRun_false (fs : FsOracle) (s : LState) (r : Run) (qi : Int)
    (s' : LState) (r' : Run) (h : tryStartRun fs s r qi = (false, s', r')) :
    s' = s := by
  unfold tryStartRun at h
  split at h
  · cases h; rfl
  · split at h
    · cases h; rfl
    · simp only [] at h
      split at h
      · exact makeRunDirs_false _ _ _ _ _ _ _ _ _ h
      · split at h
        · exact makeRunDirs_false _ _ _ _ _ _ _ _ _ h
        · cases h; rfl

/-- A successful `tryStartRun` found an accepting node and committed the
start on it. -/
theorem tryStartRun_true (fs : FsOracle) (s : LState) (r : Run) (qi : Int)
    (s' : LState) (r' : Run) (h : tryStartRun fs s r qi = (true, s', r')) :
    ∃ nname nid nd b,
      acceptingNode s r = some (nname, nid) ∧
      s.heap.get? nid = some nd ∧
      s' = { s with
             heap := s.heap.set nid { nd with busyExecutors := nd.busyExecutors + 1 },
             buildNums := aset s.buildNums r.name b,
             events := s.events ++ [Event.job_started r.name b qi] } ∧
      r'.node = some nid := by
  unfold tryStartRun at h
  split at h
  · cases h
  next p nname nid heq =>
    split at h
    · cases h
    next nd hg =>
      simp only [] at h
      split at h
      · obtain ⟨hs, hn, hname, -⟩ := makeRunDirs_true _ _ _ _ _ _ _ _ _ h
        exact ⟨nname, nid, nd, _, heq, hg, hs, hn⟩
      · split at h
        · obtain ⟨hs, hn, hname, -⟩ := makeRunDirs_true _ _ _ _ _ _ _ _ _ h
          obtain ⟨hname', -, -⟩ := withInitScript_fields fs (s.homeDir ++ "/cfg") r
          rw [hname'] at hs
          exact ⟨nname, nid, nd, _, heq, hg, hs, hn⟩
        · cases h

/-- `List.set` then `get?` at the written index. -/
theorem lget_set_self {α : Type} (l : List α) (i : Nat) (a : α) (h : i < l.length) :
    (l.set i a).get? i = some a := by
  induction l generalizing i with
  | nil => simp at h
  | cons x xs ih =>
    cases i with
    | zero => rfl
    | succ j => exact ih j (by simpa using h)

/-- `List.set` then `get?` at another index. -/
theorem lget_set_ne {α : Type} (l : List α) (i j : Nat) (a : α) (h : i ≠ j) :
    (l.set i a).get? j = l.get? j := by
  induction l generalizing i j with
  | nil => simp
  | cons x xs ih =>
    cases i with
    | zero =>
      cases j with
      | zero => exact absurd rfl h
      | succ j' => rfl
    | succ i' =>
      cases j with
      | zero => rfl
      | succ j' => exact ih i' j' fun he => h (by rw [he])

/-- Removing the element at `i` removes exactly one occurrence of its value
from the `countP` total. -/
theorem countP_eraseIdx {α : Type} (l : List α) (i : Nat) (r : α) (p : α → Bool)
    (h : l.get? i = some r) :
    l.countP p = (l.eraseIdx i).countP p + (if p r then 1 else 0) := by
  induction l generalizing i with
  | nil => simp at h
  | cons x xs ih =>
    cases i with
    | zero =>
      have : x = r := by simpa using h
      subst this
      simp [List.countP_cons]
    | succ j =>
      have hx := ih j (by simpa using h)
      simp [List.countP_cons, List.eraseIdx_cons_succ, hx]
      omega

/-- Membership survives `eraseIdx` backwards. -/
theorem mem_of_mem_eraseIdx {α : Type} (l : List α) (i : Nat) (a : α)
    (h : a ∈ l.eraseIdx i) : a ∈ l := by
  induction l generalizing i with
  | nil => simp at h
  | cons x xs ih =>
    cases i with
    | zero => exact List.mem_cons_of_mem x h
    | succ j =>
      rcases List.mem_cons.mp h with rfl | hm
      · exact List.mem_cons_self _ _
      · exact List.mem_cons_of_mem x (ih j hm)

/-- Members of `mapInsert` are old members or the new pair. -/
theorem mem_mapInsert (m : List (String × Nat)) (k : String) (v : Nat)
    (q : String × Nat) (h : q ∈ mapInsert m k v) : q ∈ m ∨ q = (k, v) := by
  induction m with
  | nil => simpa [mapInsert] using h
  | cons p rest ih =>
    unfold mapInsert at h
    split at h
    · exact Or.inl h
    · split at h
      · rcases List.mem_cons.mp h with rfl | hm
        · exact Or.inr rfl
        · exact Or.inl hm
      · rcases List.mem_cons.mp h with rfl | hm
        · exact Or.inl (List.mem_cons_self _ _)
        · rcases ih hm with hm' | rfl
          · exact Or.inl (List.mem_cons_of_mem _ hm')
          · exact Or.inr rfl

/-- Number of active runs holding a reference to heap slot `nid`. -/
def countOn (runs : List Run) (nid : Nat) : Nat :=
  runs.countP (fun r => r.node == some nid)

/-- Runs that cannot reference slot `n` contribute a zero count. -/
theorem countOn_zero (runs : List Run) (n : Nat)
    (h : ∀ r ∈ runs, ∀ nid, r.node = some nid → nid ≠ n) :
    countOn runs n = 0 := by
  rw [countOn, List.countP_eq_zero]
  intro r hr hb
  have : r.node = some n := by simpa using hb
  exact h r hr n this rfl

/-- Registry entries reference live heap slots. -/
def RegistryValid (s : LState) : Prop :=
  ∀ p ∈ s.nodes, p.2 < s.heap.length

/-- Active runs reference live heap slots. -/
def ActiveValid (s : LState) : Prop :=
  ∀ r ∈ s.activeJobs, ∀ nid, r.node = some nid → nid < s.heap.length

/-- Every heap node's busy count equals the number of active runs that hold
a reference to it. -/
def HeapAccurate (s : LState) : Prop :=
  ∀ nid nd, s.heap.get? nid = some nd →
    nd.busyExecutors = (countOn s.activeJobs nid : Int)

/-- Structural scheduler invariant. -/
def SchedInv (s : LState) : Prop := RegistryValid s ∧ ActiveValid s ∧ HeapAccurate s

/-- No registry node is busier than its capacity. -/
def CapOk (s : LState) : Prop :=
  ∀ p ∈ s.nodes, ∀ nd, s.heap.get? p.2 = some nd →
    nd.busyExecutors ≤ nd.numExecutors

/-- Starting a run and inserting it into the active set preserves the
structural invariant: the started node's busy count and the count of active
runs referencing it move together. -/
theorem schedInv_start (fs : FsOracle) (s : LState) (r : Run) (qi : Int)
    (s' : LState) (r' : Run) (hinv : SchedInv s)
    (h : tryStartRun fs s r qi = (true, s', r')) :
    SchedInv { s' with activeJobs := s'.activeJobs ++ [r'] } := by
  obtain ⟨hreg, hact, hacc⟩ := hinv
  obtain ⟨nname, nid, nd, b, -, hg, hs, hn⟩ := tryStartRun_true fs s r qi s' r' h
  subst hs
  have hlt : nid < s.heap.length := by
    rcases List.get?_eq_some.mp hg with ⟨hl, -⟩
    exact hl
  refine ⟨?_, ?_, ?_⟩
  · intro p hp
    simp only [List.length_set]
    exact hreg p hp
  · intro r0 hr0 nid0 hn0
    simp only [List.length_set]
    rcases List.mem_append.mp hr0 with hm | hm
    · exact hact r0 hm nid0 hn0
    · have : r0 = r' := by simpa using hm
      subst this
      rw [hn] at hn0
      cases hn0
      exact hlt
  · intro nid0 nd0 hg0
    simp only at hg0 ⊢
    have hcount : countOn (s.activeJobs ++ [r']) nid0 =
        countOn s.activeJobs nid0 + (if r'.node == some nid0 then 1 else 0) := by
      simp [countOn, List.countP_append, List.countP_cons]
    by_cases he : nid0 = nid
    · subst he
      rw [lget_set_self _ _ _ hlt] at hg0
      cases hg0
      have := hacc nid0 nd hg
      rw [hcount, hn]
      simp only [beq_self_eq_true, if_true]
      push_cast
      omega
    · rw [lget_set_ne _ _ _ _ fun x => he x.symm] at hg0
      have := hacc nid0 nd0 hg0
      rw [hcount, hn]
      have hne : ((some nid : Option Nat) == some nid0) = false := by
        simp [he]
        omega
      rw [hne]
      simpa using this

/-- The admission traversal preserves the structural invariant. -/
theorem schedInv_assignLoop (fs : FsOracle) (pending : List Run) (s : LState)
    (pos : Nat) (hinv : SchedInv s) :
    SchedInv (assignLoop fs s pos pending).1 := by
  induction pending generalizing s pos with
  | nil => exact hinv
  | cons r rest ih =>
    rcases htr : tryStartRun fs s r (-(pos : Int)) with ⟨b, s1, r1⟩
    cases b
    · have hse : s1 = s := tryStartRun_false fs s r _ s1 r1 htr
      subst hse
      simp only [assignLoop, htr]
      rcases hal : assignLoop fs s1 (pos + 1) rest with ⟨s2, ns⟩
      have hrec := ih s1 (pos + 1) hinv
      rw [hal] at hrec
      simpa using hrec
    · simp only [assignLoop, htr]
      exact ih _ pos (schedInv_start fs s r _ s1 r1 hinv htr)

/-- The queued-jobs field does not occur in the structural invariant. -/
theorem schedInv_queue_irrel (s : LState) (q : List Run) (hinv : SchedInv s) :
    SchedInv { s with queuedJobs := q } := by
  obtain ⟨h1, h2, h3⟩ := hinv
  exact ⟨h1, h2, h3⟩

/-- `Laminar::assignNewJobs` preserves the structural invariant. -/
theorem schedInv_assignNewJobs (fs : FsOracle) (s : LState) (hinv : SchedInv s) :
    SchedInv (assignNewJobs fs s) := by
  unfold assignNewJobs
  rcases hal : assignLoop fs { s with queuedJobs := [] } 0 s.queuedJobs with ⟨s', ns⟩
  have := schedInv_assignLoop fs s.queuedJobs { s with queuedJobs := [] } 0
    (schedInv_queue_irrel s [] hinv)
  rw [hal] at this
  exact schedInv_queue_irrel s' ns this

/-- `Laminar::queueJob` preserves the structural invariant. -/
theorem schedInv_queueJob (fs : FsOracle) (s : LState) (name : String)
    (params : List (String × String)) (hinv : SchedInv s) :
    SchedInv (queueJob fs s name params) := by
  unfold queueJob
  split
  · exact hinv
  · apply schedInv_assignNewJobs
    obtain ⟨h1, h2, h3⟩ := hinv
    exact ⟨h1, h2, h3⟩

/-- `Laminar::runFinished` preserves the structural invariant. -/
theorem schedInv_runFinished (fs : FsOracle) (s : LState) (i : Nat)
    (hinv : SchedInv s) : SchedInv (runFinished fs s i) := by
  unfold runFinished
  cases hget : s.activeJobs.get? i with
  | none => exact hinv
  | some r =>
    dsimp only
    cases hnode : r.node with
    | none => exact hinv
    | some nid =>
      dsimp only
      cases hg : s.heap.get? nid with
      | none => exact hinv
      | some nd =>
        dsimp only
        obtain ⟨hreg, hact, hacc⟩ := hinv
        apply schedInv_assignNewJobs
        have hlt : nid < s.heap.length := by
          rcases List.get?_eq_some.mp hg with ⟨hl, -⟩
          exact hl
        refine ⟨?_, ?_, ?_⟩
        · intro p hp
          simpa using hreg p hp
        · intro r0 hr0 nid0 hn0
          simp only [List.length_set]
          exact hact r0 (mem_of_mem_eraseIdx _ _ _ hr0) nid0 hn0
        · intro nid0 nd0 hg0
          simp only at hg0 ⊢
          have hsplit := countP_eraseIdx s.activeJobs i r
            (fun r0 => r0.node == some nid0) hget
          by_cases he : nid0 = nid
          · subst he
            rw [lget_set_self _ _ _ hlt] at hg0
            cases hg0
            have hb := hacc nid0 nd hg
            have hpr : (r.node == some nid0) = true := by simp [hnode]
            simp [hpr] at hsplit
            simp only [countOn] at hb ⊢
            omega
          · rw [lget_set_ne _ _ _ _ fun x => he x.symm] at hg0
            have hb := hacc nid0 nd0 hg0
            have hpr : (r.node == some nid0) = false := by
              simp [hnode]
              omega
            simp [hpr] at hsplit
            simp only [countOn] at hb ⊢
            omega

/-- `get?` at the length of the prefix of a one-element append. -/
theorem lget_concat_length {α : Type} (l : List α) (a : α) :
    (l ++ [a]).get? l.length = some a := by
  induction l with
  | nil => rfl
  | cons x xs ih => simp only [List.cons_append, List.length_cons]; exact ih

/-- One node upsert preserves the structural invariant. -/
theorem schedInv_upsertNode (s : LState) (c : NodeConf) (hinv : SchedInv s) :
    SchedInv (upsertNode s c) := by
  obtain ⟨hreg, hact, hacc⟩ := hinv
  unfold upsertNode
  cases hl : alookup s.nodes c.name with
  | some nid =>
    dsimp only
    cases hg : s.heap.get? nid with
    | none => exact ⟨hreg, hact, hacc⟩
    | some nd =>
      have hlt : nid < s.heap.length := by
        rcases List.get?_eq_some.mp hg with ⟨hli, -⟩
        exact hli
      refine ⟨?_, ?_, ?_⟩
      · intro p hp
        simpa using hreg p hp
      · intro r0 hr0 nid0 hn0
        simp only [List.length_set]
        exact hact r0 hr0 nid0 hn0
      · intro nid0 nd0 hg0
        simp only at hg0 ⊢
        by_cases he : nid0 = nid
        · subst he
          rw [lget_set_self _ _ _ hlt] at hg0
          cases hg0
          simpa using hacc nid0 nd hg
        · rw [lget_set_ne _ _ _ _ fun x => he x.symm] at hg0
          exact hacc nid0 nd0 hg0
  | none =>
    dsimp only
    refine ⟨?_, ?_, ?_⟩
    · intro p hp
      simp only [List.length_append, List.length_singleton]
      rcases mem_mapInsert _ _ _ _ hp with hm | rfl
    
      · have := hreg p hm
        omega
      · simp
    · intro r0 hr0 nid0 hn0
      simp only [List.length_append, List.length_singleton]
      have := hact r0 hr0 nid0 hn0
      omega
    · intro nid0 nd0 hg0
      simp only at hg0 ⊢
      rcases List.get?_eq_some.mp hg0 with ⟨hlen, -⟩
      rw [List.length_append, List.length_singleton] at hlen
      by_cases he : nid0 = s.heap.length
      · subst he
        rw [lget_concat_length] at hg0
        cases hg0
        have hzero : countOn s.activeJobs s.heap.length = 0 := by
          apply countOn_zero
          intro r hr nidr hnr
          have := hact r hr nidr hnr
          omega
        simp [hzero]
      · have hlt : nid0 < s.heap.length := by omega
        rw [List.get?_append hlt] at hg0
        exact hacc nid0 nd0 hg0

/-- The node scan fold preserves the structural invariant. -/
theorem schedInv_foldUpsert (scan : List NodeConf) (s : LState)
    (hinv : SchedInv s) : SchedInv (scan.foldl upsertNode s) := by
  induction scan generalizing s with
  | nil => exact hinv
  | cons c rest ih => exact ih _ (schedInv_upsertNode s c hinv)

/-- Removing registry entries preserves the structural invariant. -/
theorem schedInv_filter_nodes (s : LState) (p : String × Nat → Bool)
    (hinv : SchedInv s) : SchedInv { s with nodes := s.nodes.filter p } := by
  obtain ⟨hreg, hact, hacc⟩ := hinv
  refine ⟨?_, hact, hacc⟩
  intro q hq
  exact hreg q (List.mem_filter.mp hq).1

/-- Appending a fresh idle node to the heap and registering it preserves the
structural invariant. -/
theorem schedInv_appendNode (s : LState) (k : String) (nnode : Node)
    (hb : nnode.busyExecutors = 0) (hinv : SchedInv s) :
    SchedInv { s with heap := s.heap ++ [nnode],
                      nodes := mapInsert s.nodes k s.heap.length } := by
  obtain ⟨hreg, hact, hacc⟩ := hinv
  refine ⟨?_, ?_, ?_⟩
  · intro p hp
    simp only [List.length_append, List.length_singleton]
    rcases mem_mapInsert _ _ _ _ hp with hm | rfl
    · have := hreg p hm
      omega
    · simp
  · intro r0 hr0 nid0 hn0
    simp only [List.length_append, List.length_singleton]
    have := hact r0 hr0 nid0 hn0
    omega
  · intro nid0 nd0 hg0
    simp only at hg0 ⊢
    rcases List.get?_eq_some.mp hg0 with ⟨hlen, -⟩
    rw [List.length_append, List.length_singleton] at hlen
    by_cases he : nid0 = s.heap.length
    · subst he
      rw [lget_concat_length] at hg0
      cases hg0
      have hzero : countOn s.activeJobs s.heap.length = 0 := by
        apply countOn_zero
        intro r hr nidr hnr
        have := hact r hr nidr hnr
        omega
      simp [hzero, hb]
    · have hlt : nid0 < s.heap.length := by omega
      rw [List.get?_append hlt] at hg0
      exact hacc nid0 nd0 hg0

/-- The job-tags fold of `Laminar::loadConfiguration` preserves the
structural invariant. -/
theorem schedInv_jobTagsFold (jobScan : List JobConf) (s : LState)
    (hinv : SchedInv s) :
    SchedInv (jobScan.foldl (fun st jc =>
      match jc.tags with
      | some ts => { st with jobTags := aset st.jobTags jc.name ts }
      | none => st) s) := by
  induction jobScan generalizing s with
  | nil => exact hinv
  | cons jc rest ih =>
    apply ih
    show SchedInv (match jc.tags with
      | some ts => { s with jobTags := aset s.jobTags jc.name ts }
      | none => s)
    obtain ⟨hreg, hact, hacc⟩ := hinv
    cases jc.tags with
    | some ts => exact ⟨hreg, hact, hacc⟩
    | none => exact ⟨hreg, hact, hacc⟩

/-- `Laminar::loadConfiguration` preserves the structural invariant. -/
theorem schedInv_loadConfiguration (scan : List NodeConf) (jobScan : List JobConf)
    (s : LState) (hinv : SchedInv s) :
    SchedInv (loadConfiguration scan jobScan s) := by
  unfold loadConfiguration
  simp only []
  apply schedInv_jobTagsFold
  split
  · exact schedInv_appendNode _ "" _ rfl
      (schedInv_filter_nodes _ _ (schedInv_foldUpsert scan s hinv))
  · exact schedInv_filter_nodes _ _ (schedInv_foldUpsert scan s hinv)

/-- `applyOp` preserves the structural invariant. -/
theorem schedInv_applyOp (s : LState) (op : Op) (hinv : SchedInv s) :
    SchedInv (applyOp s op) := by
  cases op with
  | enqueue n p fs => exact schedInv_queueJob fs s n p hinv
  | finish i fs => exact schedInv_runFinished fs s i hinv
  | reload sc js fs =>
    exact schedInv_assignNewJobs fs _ (schedInv_loadConfiguration sc js s hinv)
  | assign fs => exact schedInv_assignNewJobs fs s hinv

/-- `runOps` preserves the structural invariant. -/
theorem schedInv_runOps (ops : List Op) (s : LState) (hinv : SchedInv s) :
    SchedInv (runOps s ops) := by
  induction ops generalizing s with
  | nil => exact hinv
  | cons op rest ih => exact ih _ (schedInv_applyOp s op hinv)

/-- The pristine scheduler satisfies the structural invariant. -/
theorem schedInv_empty : SchedInv emptyState := by
  refine ⟨?_, ?_, ?_⟩
  · intro p hp
    simp [emptyState] at hp
  · intro r hr
    simp [emptyState] at hr
  · intro nid nd hg
    simp [emptyState] at hg

/-- Starting a run keeps every registry node within its capacity: the chosen
node had a free executor by `nodeCanQueue`. -/
theorem capOk_start (fs : FsOracle) (s : LState) (r : Run) (qi : Int)
    (s' : LState) (r' : Run) (hcap : CapOk s)
    (h : tryStartRun fs s r qi = (true, s', r')) :
    CapOk { s' with activeJobs := s'.activeJobs ++ [r'] } := by
  obtain ⟨nname, nid, nd, b, hfind, hg, hs, -⟩ := tryStartRun_true fs s r qi s' r' h
  obtain ⟨-, nd', hg', hq⟩ := acceptingNode_some s r nname nid hfind
  rw [hg] at hg'
  cases hg'
  have hfree : nd.busyExecutors < nd.numExecutors :=
    ((nodeCanQueue_correct s.jobTags nd r).mp hq).1
  subst hs
  intro p hp nd0 hg0
  simp only at hp hg0
  by_cases he : p.2 = nid
  · rw [he] at hg0
    have hlt : nid < s.heap.length := by
      rcases List.get?_eq_some.mp hg with ⟨hl, -⟩
      exact hl
    rw [lget_set_self _ _ _ hlt] at hg0
    cases hg0
    simp only
    omega
  · rw [lget_set_ne _ _ _ _ fun x => he x.symm] at hg0
    exact hcap p hp nd0 hg0

/-- The admission traversal keeps every registry node within its capacity. -/
theorem capOk_assignLoop (fs : FsOracle) (pending : List Run) (s : LState)
    (pos : Nat) (hcap : CapOk s) : CapOk (assignLoop fs s pos pending).1 := by
  induction pending generalizing s pos with
  | nil => exact hcap
  | cons r rest ih =>
    rcases htr : tryStartRun fs s r (-(pos : Int)) with ⟨b, s1, r1⟩
    cases b
    · have hse : s1 = s := tryStartRun_false fs s r _ s1 r1 htr
      subst hse
      simp only [assignLoop, htr]
      rcases hal : assignLoop fs s1 (pos + 1) rest with ⟨s2, ns⟩
      have hrec := ih s1 (pos + 1) hcap
      rw [hal] at hrec
      simpa using hrec
    · simp only [assignLoop, htr]
      exact ih _ pos (capOk_start fs s r _ s1 r1 hcap htr)

/-- The queued-jobs field does not occur in the capacity bound. -/
theorem capOk_queue_irrel (s : LState) (q : List Run) (hcap : CapOk s) :
    CapOk { s with queuedJobs := q } := hcap

/-- `Laminar::assignNewJobs` keeps every registry node within its capacity. -/
theorem capOk_assignNewJobs (fs : FsOracle) (s : LState) (hcap : CapOk s) :
    CapOk (assignNewJobs fs s) := by
  unfold assignNewJobs
  rcases hal : assignLoop fs { s with queuedJobs := [] } 0 s.queuedJobs with ⟨s', ns⟩
  have := capOk_assignLoop fs s.queuedJobs { s with queuedJobs := [] } 0
    (capOk_queue_irrel s [] hcap)
  rw [hal] at this
  exact capOk_queue_irrel s' ns this

/-- `Laminar::queueJob` keeps every registry node within its capacity. -/
theorem capOk_queueJob (fs : FsOracle) (s : LState) (name : String)
    (params : List (String × String)) (hcap : CapOk s) :
    CapOk (queueJob fs s name params) := by
  unfold queueJob
  split
  · exact hcap
  · exact capOk_assignNewJobs fs _ hcap

/-- `Laminar::runFinished` keeps every registry node within its capacity:
the busy count only decreases. -/
theorem capOk_runFinished (fs : FsOracle) (s : LState) (i : Nat)
    (hcap : CapOk s) : CapOk (runFinished fs s i) := by
  unfold runFinished
  cases hget : s.activeJobs.get? i with
  | none => exact hcap
  | some r =>
    dsimp only
    cases hnode : r.node with
    | none => exact hcap
    | some nid =>
      dsimp only
      cases hg : s.heap.get? nid with
      | none => exact hcap
      | some nd =>
        dsimp only
        apply capOk_assignNewJobs
        intro p hp nd0 hg0
        simp only at hp hg0
        by_cases he : p.2 = nid
        · rw [he] at hg0
          have hlt : nid < s.heap.length := by
            rcases List.get?_eq_some.mp hg with ⟨hl, -⟩
            exact hl
          rw [lget_set_self _ _ _ hlt] at hg0
          cases hg0
          have := hcap p hp nd (by rw [he]; exact hg)
          simp only
          omega
        · rw [lget_set_ne _ _ _ _ fun x => he x.symm] at hg0
          exact hcap p hp nd0 hg0

/-- A node scan is capacity-safe when every upserted file gives its node at
least the busy count the node has at that point of the scan (and a
nonnegative capacity for fresh nodes). -/
def scanOk : LState → List NodeConf → Bool
  | _, [] => true
  | s, c :: rest =>
    (match alookup s.nodes c.name with
     | some nid =>
       match s.heap.get? nid with
       | some nd => decide (nd.busyExecutors ≤ c.executors)
       | none => false
     | none => decide (0 ≤ c.executors)) && scanOk (upsertNode s c) rest

/-- A capacity-safe upsert keeps every registry node within its capacity. -/
theorem capOk_upsertNode (s : LState) (c : NodeConf) (hreg : RegistryValid s)
    (hcap : CapOk s)
    (hok : (match alookup s.nodes c.name with
            | some nid =>
              match s.heap.get? nid with
              | some nd => decide (nd.busyExecutors ≤ c.executors)
              | none => false
            | none => decide (0 ≤ c.executors)) = true) :
    CapOk (upsertNode s c) := by
  unfold upsertNode
  cases hl : alookup s.nodes c.name with
  | some nid =>
    rw [hl] at hok
    dsimp only at hok ⊢
    cases hg : s.heap.get? nid with
    | none => rw [hg] at hok; simp at hok
    | some nd =>
      rw [hg] at hok
      dsimp only at hok
      have hle : nd.busyExecutors ≤ c.executors := by simpa using hok
      have hlt : nid < s.heap.length := by
        rcases List.get?_eq_some.mp hg with ⟨hli, -⟩
        exact hli
      intro p hp nd0 hg0
      simp only at hp hg0
      by_cases he : p.2 = nid
      · rw [he] at hg0
        rw [lget_set_self _ _ _ hlt] at hg0
        cases hg0
        exact hle
      · rw [lget_set_ne _ _ _ _ fun x => he x.symm] at hg0
        exact hcap p hp nd0 hg0
  | none =>
    rw [hl] at hok
    dsimp only at hok
    have hge : (0 : Int) ≤ c.executors := by simpa using hok
    dsimp only
    intro p hp nd0 hg0
    simp only at hp hg0
    rcases mem_mapInsert _ _ _ _ hp with hm | rfl
    · have hlt := hreg p hm
      rw [List.get?_append hlt] at hg0
      exact hcap p hm nd0 hg0
    · simp only at hg0
      rw [lget_concat_length] at hg0
      cases hg0
      exact hge

/-- A capacity-safe scan fold keeps every registry node within its capacity. -/
theorem capOk_foldUpsert (scan : List NodeConf) (s : LState)
    (hinv : SchedInv s) (hcap : CapOk s) (hok : scanOk s scan = true) :
    CapOk (scan.foldl upsertNode s) := by
  induction scan generalizing s with
  | nil => exact hcap
  | cons c rest ih =>
    rw [scanOk, Bool.and_eq_true] at hok
    exact ih (upsertNode s c) (schedInv_upsertNode s c hinv)
      (capOk_upsertNode s c hinv.1 hcap hok.1) hok.2

/-- Dropping registry entries keeps the capacity bound. -/
theorem capOk_filter_nodes (s : LState) (p : String × Nat → Bool)
    (hcap : CapOk s) : CapOk { s with nodes := s.nodes.filter p } := by
  intro q hq nd hg
  exact hcap q (List.mem_filter.mp hq).1 nd hg

/-- Appending a fresh node whose busy count does not exceed its capacity
keeps the capacity bound. -/
theorem capOk_appendNode (s : LState) (k : String) (nnode : Node)
    (hb : nnode.busyExecutors ≤ nnode.numExecutors) (hreg : RegistryValid s)
    (hcap : CapOk s) :
    CapOk { s with heap := s.heap ++ [nnode],
                   nodes := mapInsert s.nodes k s.heap.length } := by
  intro p hp nd0 hg0
  simp only at hp hg0
  rcases mem_mapInsert _ _ _ _ hp with hm | rfl
  · have hlt := hreg p hm
    rw [List.get?_append hlt] at hg0
    exact hcap p hm nd0 hg0
  · simp only at hg0
    rw [lget_concat_length] at hg0
    cases hg0
    exact hb

/-- The job-tags fold keeps the capacity bound. -/
theorem capOk_jobTagsFold (jobScan : List JobConf) (s : LState)
    (hcap : CapOk s) :
    CapOk (jobScan.foldl (fun st jc =>
      match jc.tags with
      | some ts => { st with jobTags := aset st.jobTags jc.name ts }
      | none => st) s) := by
  induction jobScan generalizing s with
  | nil => exact hcap
  | cons jc rest ih =>
    apply ih
    show CapOk (match jc.tags with
      | some ts => { s with jobTags := aset s.jobTags jc.name ts }
      | none => s)
    cases jc.tags with
    | some ts => exact hcap
    | none => exact hcap

/-- A capacity-safe reload keeps every registry node within its capacity. -/
theorem capOk_loadConfiguration (scan : List NodeConf) (jobScan : List JobConf)
    (s : LState) (hinv : SchedInv s) (hcap : CapOk s)
    (hok : scanOk s scan = true) :
    CapOk (loadConfiguration scan jobScan s) := by
  unfold loadConfiguration
  simp only []
  apply capOk_jobTagsFold
  have hinv1 := schedInv_foldUpsert scan s hinv
  have hcap1 := capOk_foldUpsert scan s hinv hcap hok
  split
  · exact capOk_appendNode _ "" _ (by simp) (schedInv_filter_nodes _ _ hinv1).1
      (capOk_filter_nodes _ _ hcap1)
  · exact capOk_filter_nodes _ _ hcap1

/-- An operation sequence is capacity-safe when every reload's scan is
capacity-safe at the state where it is applied. -/
def capSafeOps : LState → List Op → Bool
  | _, [] => true
  | s, op :: rest =>
    (match op with
     | .reload sc _ _ => scanOk s sc
     | _ => true) && capSafeOps (applyOp s op) rest

/-- A capacity-safe operation sequence keeps every registry node within its
capacity. -/
theorem capOk_runOps (ops : List Op) (s : LState) (hinv : SchedInv s)
    (hcap : CapOk s) (hok : capSafeOps s ops = true) : CapOk (runOps s ops) := by
  induction ops generalizing s with
  | nil => exact hcap
  | cons op rest ih =>
    cases op with
    | enqueue n p fs =>
      simp only [capSafeOps, Bool.true_and] at hok
      exact ih _ (schedInv_applyOp s _ hinv) (capOk_queueJob fs s n p hcap) hok
    | finish i fs =>
      simp only [capSafeOps, Bool.true_and] at hok
      exact ih _ (schedInv_applyOp s _ hinv) (capOk_runFinished fs s i hcap) hok
    | reload sc js fs =>
      simp only [capSafeOps, Bool.and_eq_true] at hok
      exact ih _ (schedInv_applyOp s _ hinv)
        (capOk_assignNewJobs fs _
          (capOk_loadConfiguration sc js s hinv hcap hok.1)) hok.2
    | assign fs =>
      simp only [capSafeOps, Bool.true_and] at hok
      exact ih _ (schedInv_applyOp s _ hinv) (capOk_assignNewJobs fs s hcap) hok

/-- Decidable check that every registry node's busy count equals the number
of active runs referencing it and is nonnegative. -/
def registryAccurateB (s : LState) : Bool :=
  s.nodes.all (fun p =>
    match s.heap.get? p.2 with
    | some nd => nd.busyExecutors == (countOn s.activeJobs p.2 : Int) &&
        decide (0 ≤ nd.busyExecutors)
    | none => false)

/-- Decidable check that every registry node is within its capacity. -/
def registryCapB (s : LState) : Bool :=
  s.nodes.all (fun p =>
    match s.heap.get? p.2 with
    | some nd => decide (nd.busyExecutors ≤ nd.numExecutors)
    | none => false)

/-- The per-state property asserted by the claim: busy = active count and
0 ≤ busy ≤ capacity for every registry node. -/
def busyInvariantB (s : LState) : Bool :=
  registryAccurateB s && registryCapB s

/-- The structural invariant yields the decidable accuracy check. -/
theorem registryAccurateB_of_schedInv (s : LState) (hinv : SchedInv s) :
    registryAccurateB s = true := by
  obtain ⟨hreg, -, hacc⟩ := hinv
  rw [registryAccurateB, List.all_eq_true]
  intro p hp
  have hlt := hreg p hp
  obtain ⟨nd, hg⟩ : ∃ nd, s.heap.get? p.2 = some nd := by
    cases hq : s.heap.get? p.2 with
    | none =>
      rw [List.get?_eq_none] at hq
      omega
    | some nd => exact ⟨nd, rfl⟩
  rw [hg]
  have hb := hacc p.2 nd hg
  simp [hb]

/-- The capacity bound yields the decidable capacity check. -/
theorem registryCapB_of_capOk (s : LState) (hreg : RegistryValid s)
    (hcap : CapOk s) : registryCapB s = true := by
  rw [registryCapB, List.all_eq_true]
  intro p hp
  have hlt := hreg p hp
  obtain ⟨nd, hg⟩ : ∃ nd, s.heap.get? p.2 = some nd := by
    cases hq : s.heap.get? p.2 with
    | none =>
      rw [List.get?_eq_none] at hq
      omega
    | some nd => exact ⟨nd, rfl⟩
  rw [hg]
  simpa using hcap p hp nd hg

/-- C2 counterexample: starting from a fresh scheduler, load one node `a`
with one executor, enqueue and start a job on it, then reload with the same
node's capacity lowered to 0. The busy count (1) now exceeds the capacity
(0), so the claimed invariant is violated after this sequence of enqueue,
admission and reload callbacks. -/
theorem busy_invariant_counterexample :
    busyInvariantB (runOps emptyState
      [Op.reload [{ name := "a", executors := 1, tags := none }] [] fsAllOk,
       Op.enqueue "j" [] fsAllOk,
       Op.reload [{ name := "a", executors := 0, tags := none }] [] fsAllOk]) = false := by
  decide

/-- C2 amended: after any sequence of enqueue, admission, terminal-transition
and reload callbacks from a fresh scheduler, every registry node's busy count
equals the number of active runs on it and is nonnegative; the upper bound
busy ≤ capacity additionally holds whenever every reload in the sequence is
capacity-safe (no scan lowers a node's capacity below its current busy count,
and scanned capacities are nonnegative). -/
theorem busy_invariant_amended (ops : List Op) :
    registryAccurateB (runOps emptyState ops) = true ∧
      (capSafeOps emptyState ops = true →
        registryCapB (runOps emptyState ops) = true) := by
  have hinv := schedInv_runOps ops emptyState schedInv_empty
  refine ⟨registryAccurateB_of_schedInv _ hinv, fun hok => ?_⟩
  have hcap0 : CapOk emptyState := by
    intro p hp
    simp [emptyState] at hp
  exact registryCapB_of_capOk _ hinv.1
    (capOk_runOps ops emptyState schedInv_empty hcap0 hok)

/-- Closed instance of `busy_invariant_amended` on a capacity-safe sequence:
one node of capacity 2, one job started on it. -/
theorem busy_invariant_amended_witness :
    capSafeOps emptyState
        [Op.reload [{ name := "a", executors := 2, tags := none }] [] fsAllOk,
         Op.enqueue "j" [] fsAllOk] = true ∧
      registryCapB (runOps emptyState
        [Op.reload [{ name := "a", executors := 2, tags := none }] [] fsAllOk,
         Op.enqueue "j" [] fsAllOk]) = true :=
  ⟨by decide,
   (busy_invariant_amended
     [Op.reload [{ name := "a", executors := 2, tags := none }] [] fsAllOk,
      Op.enqueue "j" [] fsAllOk]).2 (by decide)⟩

/-- The admission traversal never lengthens the leftover queue. -/
theorem assignLoop_length (fs : FsOracle) (pending : List Run) (s : LState)
    (pos : Nat) : (assignLoop fs s pos pending).2.length ≤ pending.length := by
  induction pending generalizing s pos with
  | nil => simp [assignLoop]
  | cons r rest ih =>
    rcases htr : tryStartRun fs s r (-(pos : Int)) with ⟨b, s1, r1⟩
    cases b
    · simp only [assignLoop, htr]
      rcases hal : assignLoop fs s1 (pos + 1) rest with ⟨s2, ns⟩
      have := ih s1 (pos + 1)
      rw [hal] at this
      simpa using Nat.succ_le_succ this
    · simp only [assignLoop, htr]
      have := ih { s1 with activeJobs := s1.activeJobs ++ [r1] } pos
      exact le_trans this (Nat.le_succ _)

/-- Against the all-succeeding filesystem, `tryStartRun` only fails when no
registry node accepts the run. -/
theorem tryStartRun_allOk_false (s : LState) (r : Run) (qi : Int)
    (s' : LState) (r' : Run)
    (h : tryStartRun fsAllOk s r qi = (false, s', r')) :
    acceptingNode s r = none := by
  cases hacc : acceptingNode s r with
  | none => rfl
  | some p =>
    exfalso
    obtain ⟨nname, nid⟩ := p
    obtain ⟨-, nd, hg, -⟩ := acceptingNode_some s r nname nid hacc
    unfold tryStartRun at h
    rw [hacc] at h
    dsimp only at h
    rw [hg] at h
    dsimp only at h
    simp only [fsAllOk, if_true] at h
    unfold makeRunDirs at h
    simp only [rundirFail, archiveFail, fsAllOk, Bool.not_true, Bool.and_false,
      Bool.false_and, Bool.and_self, if_true, if_false] at h
    unfold commitStartRun at h
    simp at h

/-- Against the all-succeeding filesystem, a traversal of a queue containing
a run some registry node accepts starts at least one run. -/
theorem assignLoop_starts (pending : List Run) (s : LState) (pos : Nat)
    (r : Run) (hmem : r ∈ pending) (hacc : acceptingNode s r ≠ none) :
    (assignLoop fsAllOk s pos pending).2.length < pending.length := by
  induction pending generalizing s pos with
  | nil => simp at hmem
  | cons hd rest ih =>
    rcases htr : tryStartRun fsAllOk s hd (-(pos : Int)) with ⟨b, s1, r1⟩
    cases b
    · have hse : s1 = s := tryStartRun_false fsAllOk s hd _ s1 r1 htr
      subst hse
      simp only [assignLoop, htr]
      rcases List.mem_cons.mp hmem with rfl | hmem'
      · exact absurd (tryStartRun_allOk_false s1 r _ s1 r1 htr) hacc
      · rcases hal : assignLoop fsAllOk s1 (pos + 1) rest with ⟨s2, ns⟩
        have := ih s1 (pos + 1) hmem' hacc
        rw [hal] at this
        simpa using Nat.succ_lt_succ this
    · simp only [assignLoop, htr]
      have := assignLoop_length fsAllOk rest
        { s1 with activeJobs := s1.activeJobs ++ [r1] } pos
      exact Nat.lt_succ_of_le this

/-- C3 amended: whenever `assignNewJobs` runs while some queued run has a
registry node that `nodeCanQueue` accepts and the startup filesystem
operations succeed (the `fsAllOk` snapshot), the admission pass starts at
least one queued run: the queue strictly shrinks. Without that proviso the
property fails: on directory-creation failure `tryStartRun` breaks out of
the node loop and the pass can return with nothing started (see
`work_conserving_counterexample`). -/
theorem assignNewJobs_work_conserving (s : LState) (r : Run) (nname : String)
    (nid : Nat) (nd : Node) (hmem : r ∈ s.queuedJobs)
    (hn : (nname, nid) ∈ s.nodes) (hg : s.heap.get? nid = some nd)
    (hq : nodeCanQueue s.jobTags nd r = true) :
    (assignNewJobs fsAllOk s).queuedJobs.length < s.queuedJobs.length := by
  unfold assignNewJobs
  rcases hal : assignLoop fsAllOk { s with queuedJobs := [] } 0 s.queuedJobs
    with ⟨s', ns⟩
  have hacc : acceptingNode { s with queuedJobs := [] } r ≠ none := by
    have : acceptingNode { s with queuedJobs := [] } r = acceptingNode s r := rfl
    rw [this]
    exact acceptingNode_isSome s r nname nid nd hn hg hq
  have := assignLoop_starts s.queuedJobs { s with queuedJobs := [] } 0 r hmem hacc
  rw [hal] at this
  simpa using this

/-- Concrete queued run of job `j`. -/
def qRun : Run :=
  { name := "j", params := [], parentName := "", parentBuild := 0,
    reasonMsg := "", scripts := [], runDir := "", node := none, build := 0 }

/-- Concrete state: one idle untagged node, one queued run. -/
def wcState : LState :=
  { homeDir := "", heap := [{ name := "a", numExecutors := 1, busyExecutors := 0, tags := [] }],
    nodes := [("a", 0)], queuedJobs := [qRun], activeJobs := [],
    buildNums := [], jobTags := [], rows := [], events := [] }

/-- Closed instance of `assignNewJobs_work_conserving` on `wcState`. -/
theorem assignNewJobs_work_conserving_witness :
    qRun ∈ wcState.queuedJobs ∧
      (assignNewJobs fsAllOk wcState).queuedJobs.length < wcState.queuedJobs.length :=
  ⟨by decide,
   assignNewJobs_work_conserving wcState qRun "a" 0
     { name := "a", numExecutors := 1, busyExecutors := 0, tags := [] }
     (by decide) (by decide) (by decide) (by decide)⟩

/-- The admission traversal never writes a `builds` row. -/
theorem assignLoop_rows (fs : FsOracle) (pending : List Run) (s : LState)
    (pos : Nat) : (assignLoop fs s pos pending).1.rows = s.rows := by
  induction pending generalizing s pos with
  | nil => rfl
  | cons r rest ih =>
    rcases htr : tryStartRun fs s r (-(pos : Int)) with ⟨b, s1, r1⟩
    cases b
    · have hse : s1 = s := tryStartRun_false fs s r _ s1 r1 htr
      subst hse
      simp only [assignLoop, htr]
      rcases hal : assignLoop fs s1 (pos + 1) rest with ⟨s2, ns⟩
      have := ih s1 (pos + 1)
      rw [hal] at this
      simpa using this
    · simp only [assignLoop, htr]
      obtain ⟨nname, nid, nd, b, -, -, hs, -⟩ := tryStartRun_true fs s r _ s1 r1 htr
      have := ih { s1 with activeJobs := s1.activeJobs ++ [r1] } pos
      rw [this, hs]

/-- C4 amended: when the run-directory creation fails for the head of the
queue (while a node accepts it and its workspace exists), the admission pass
keeps that run, unchanged, at the head of the leftover queue, writes no
`builds` row for it, and processes the remaining queued runs exactly as the
traversal of the tail. -/
theorem rundir_failure_amended (fs : FsOracle) (s : LState) (r : Run)
    (rest : List Run) (nname : String) (nid : Nat)
    (hq : s.queuedJobs = r :: rest)
    (hacc : acceptingNode s r = some (nname, nid))
    (hws : fs.pathExists (s.homeDir ++ "/run/" ++ r.name ++ "/workspace") = true)
    (hrd : rundirFail fs (s.homeDir ++ "/run/" ++ r.name ++ "/" ++
      toString ((alookup s.buildNums r.name).getD 0 + 1)) = true) :
    (assignNewJobs fs s).queuedJobs =
        r :: (assignLoop fs { s with queuedJobs := [] } 1 rest).2 ∧
      (assignNewJobs fs s).rows = s.rows ∧
      r ∈ (assignNewJobs fs s).queuedJobs := by
  obtain ⟨-, nd, hg, -⟩ := acceptingNode_some s r nname nid hacc
  have htr : tryStartRun fs { s with queuedJobs := [] } r (-(0 : Nat) : Int) =
      (false, { s with queuedJobs := [] }, r) := by
    unfold tryStartRun
    have hacc' : acceptingNode { s with queuedJobs := [] } r = some (nname, nid) := hacc
    rw [hacc']
    dsimp only
    have hg' : ({ s with queuedJobs := [] } : LState).heap.get? nid = some nd := hg
    rw [hg']
    dsimp only
    rw [hws]
    simp only [if_true]
    unfold makeRunDirs
    simp only []
    rw [hrd]
    simp only [if_true]
  have hloop : assignLoop fs { s with queuedJobs := [] } 0 (r :: rest) =
      ((assignLoop fs { s with queuedJobs := [] } 1 rest).1,
       r :: (assignLoop fs { s with queuedJobs := [] } 1 rest).2) := by
    simp only [assignLoop, htr]
  constructor
  · unfold assignNewJobs
    rw [hq, hloop]
  constructor
  · unfold assignNewJobs
    rw [hq, hloop]
    simpa using assignLoop_rows fs rest { s with queuedJobs := [] } 1
  · unfold assignNewJobs
    rw [hq, hloop]
    exact List.mem_cons_self _ _

/-- Filesystem snapshot on which every path exists and removal succeeds but
every directory creation fails. -/
def fsCreateFails : FsOracle :=
  { pathExists := fun _ => true, createOk := fun _ => false, removeOk := fun _ => true }

/-- Concrete state for the run-directory failure scenario: one idle untagged
node accepts the single queued run, the stale run directory is removed, and
recreating it fails. -/
def rdState : LState :=
  { homeDir := "", heap := [{ name := "a", numExecutors := 1, busyExecutors := 0, tags := [] }],
    nodes := [("a", 0)], queuedJobs := [qRun], activeJobs := [],
    buildNums := [], jobTags := [], rows := [], events := [] }

/-- C4 counterexample: on run-directory creation failure the admitted run is
NOT dropped — after the admission pass it is still queued (to be retried on
a later pass), while no `builds` row was written and nothing was started. -/
theorem rundir_failure_counterexample :
    acceptingNode rdState qRun = some ("a", 0) ∧
      (assignNewJobs fsCreateFails rdState).queuedJobs = [qRun] ∧
      (assignNewJobs fsCreateFails rdState).rows = [] ∧
      (assignNewJobs fsCreateFails rdState).activeJobs = [] := by
  decide

/-- Closed instance of `rundir_failure_amended` on `rdState`. -/
theorem rundir_failure_amended_witness :
    (assignNewJobs fsCreateFails rdState).queuedJobs =
        qRun :: (assignLoop fsCreateFails { rdState with queuedJobs := [] } 1 []).2 ∧
      (assignNewJobs fsCreateFails rdState).rows = rdState.rows ∧
      qRun ∈ (assignNewJobs fsCreateFails rdState).queuedJobs :=
  rundir_failure_amended fsCreateFails rdState qRun [] "a" 0
    (by decide) (by decide) (by decide) (by decide)

/-- C3 counterexample: the admission loop is invoked while registry node `a`
accepts the queued run (`nodeCanQueue` holds: free executor, no tags), yet
because run-directory creation fails the pass returns having started no run
at all: the queue keeps its length and nothing became active. -/
theorem work_conserving_counterexample :
    nodeCanQueue rdState.jobTags
        { name := "a", numExecutors := 1, busyExecutors := 0, tags := [] } qRun = true ∧
      ("a", 0) ∈ rdState.nodes ∧
      rdState.heap.get? 0 =
        some { name := "a", numExecutors := 1, busyExecutors := 0, tags := [] } ∧
      qRun ∈ rdState.queuedJobs ∧
      (assignNewJobs fsCreateFails rdState).queuedJobs.length =
        rdState.queuedJobs.length ∧
      (assignNewJobs fsCreateFails rdState).activeJobs = [] := by
  decide

/-- Filtering with a predicate that keeps every pair with key `k` does not
change the lookup at `k`. -/
theorem alookup_filter_keep (m : List (String × Nat)) (k : String)
    (p : String × Nat → Bool) (hkeep : ∀ v, p (k, v) = true) :
    alookup (m.filter p) k = alookup m k := by
  induction m with
  | nil => rfl
  | cons q rest ih =>
    rcases q with ⟨k', v'⟩
    by_cases hk : k' == k
    · have hk' : k' = k := by simpa using hk
      subst hk'
      rw [List.filter_cons, hkeep v']
      simp [alookup]
    · rw [List.filter_cons]
      cases hp : p (k', v')
      · simpa [alookup, hk] using ih
      · simpa [alookup, hk] using ih

/-- A successful lookup means the list is nonempty. -/
theorem isEmpty_false_of_alookup (m : List (String × Nat)) (k : String)
    (v : Nat) (h : alookup m k = some v) : m.isEmpty = false := by
  cases m with
  | nil => simp [alookup] at h
  | cons q rest => rfl

/-- The job-tags fold touches neither the registry nor the heap. -/
theorem jobTagsFold_projections (jobScan : List JobConf) (s : LState) :
    (jobScan.foldl (fun st jc =>
      match jc.tags with
      | some ts => { st with jobTags := aset st.jobTags jc.name ts }
      | none => st) s).nodes = s.nodes ∧
    (jobScan.foldl (fun st jc =>
      match jc.tags with
      | some ts => { st with jobTags := aset st.jobTags jc.name ts }
      | none => st) s).heap = s.heap := by
  induction jobScan generalizing s with
  | nil => exact ⟨rfl, rfl⟩
  | cons jc rest ih =>
    have hstep : ((fun (st : LState) (jc : JobConf) =>
        match jc.tags with
        | some ts => { st with jobTags := aset st.jobTags jc.name ts }
        | none => st) s jc).nodes = s.nodes ∧
        ((fun (st : LState) (jc : JobConf) =>
        match jc.tags with
        | some ts => { st with jobTags := aset st.jobTags jc.name ts }
        | none => st) s jc).heap = s.heap := by
      show (match jc.tags with
        | some ts => { s with jobTags := aset s.jobTags jc.name ts }
        | none => s).nodes = s.nodes ∧
        (match jc.tags with
        | some ts => { s with jobTags := aset s.jobTags jc.name ts }
        | none => s).heap = s.heap
      cases jc.tags with
      | some ts => exact ⟨rfl, rfl⟩
      | none => exact ⟨rfl, rfl⟩
    obtain ⟨ih1, ih2⟩ := ih ((fun (st : LState) (jc : JobConf) =>
        match jc.tags with
        | some ts => { st with jobTags := aset st.jobTags jc.name ts }
        | none => st) s jc)
    exact ⟨by rw [List.foldl_cons, ih1, hstep.1], by rw [List.foldl_cons, ih2, hstep.2]⟩

/-- Result of re-scanning an existing node: name and capacity from the file,
busy count untouched, tags replaced only when the file names some. -/
def updatedNode (c : NodeConf) (nd : Node) : Node :=
  { name := c.name, numExecutors := c.executors,
    busyExecutors := nd.busyExecutors,
    tags := match c.tags with
            | some ts => ts
            | none => nd.tags }

/-- C7 amended: a reload whose scan contains an existing node keeps the same
`Node` object (same heap slot, busy count unchanged) and replaces its name
and executor capacity; the tag set is replaced only when the new
configuration specifies a nonempty tag list, and is retained unchanged when
the new configuration specifies no tags. -/
theorem loadConfiguration_upsert_amended (s : LState) (c : NodeConf)
    (js : List JobConf) (nid : Nat) (nd : Node)
    (hl : alookup s.nodes c.name = some nid) (hg : s.heap.get? nid = some nd) :
    alookup (loadConfiguration [c] js s).nodes c.name = some nid ∧
      (loadConfiguration [c] js s).heap.get? nid = some (updatedNode c nd) := by
  have hlt : nid < s.heap.length := by
    rcases List.get?_eq_some.mp hg with ⟨hli, -⟩
    exact hli
  have hup : upsertNode s c = { s with heap := s.heap.set nid (updatedNode c nd) } := by
    unfold upsertNode
    rw [hl]
    dsimp only
    rw [hg]
    dsimp only [updatedNode]
  unfold loadConfiguration
  simp only [List.foldl_cons, List.foldl_nil, List.map_cons, List.map_nil]
  rw [hup]
  dsimp only
  have hkeep : ∀ v, ((fun (p : String × Nat) =>
      (p.1 == "" && (([c.name] : List String).length == 0)) || [c.name].contains p.1)
      (c.name, v)) = true := by
    simp
  have hfilter : alookup (s.nodes.filter (fun (p : String × Nat) =>
      (p.1 == "" && (([c.name] : List String).length == 0)) || [c.name].contains p.1))
      c.name = some nid := by
    rw [alookup_filter_keep _ _ _ hkeep]
    exact hl
  have hne := isEmpty_false_of_alookup _ _ _ hfilter
  rw [hne]
  simp only [Bool.false_eq_true, if_false]
  obtain ⟨hnodes, hheap⟩ := jobTagsFold_projections js
    { s with heap := s.heap.set nid (updatedNode c nd),
             nodes := s.nodes.filter (fun (p : String × Nat) =>
               (p.1 == "" && (([c.name] : List String).length == 0)) || [c.name].contains p.1) }
  rw [hnodes, hheap]
  exact ⟨hfilter, lget_set_self _ _ _ hlt⟩

/-- Concrete state for the reload-tags scenario: one node with a busy
executor and tag set `t`. -/
def rlState : LState :=
  { homeDir := "", heap := [{ name := "a", numExecutors := 2, busyExecutors := 1, tags := ["t"] }],
    nodes := [("a", 0)], queuedJobs := [], activeJobs := [],
    buildNums := [], jobTags := [], rows := [], events := [] }

/-- C7 counterexample: reloading node `a` from a configuration that
specifies no tags leaves its old tag set in place — the node does not end up
with an empty tag set as the claim states (capacity and busy behave as
claimed). -/
theorem loadConfiguration_tags_counterexample :
    (loadConfiguration [{ name := "a", executors := 3, tags := none }] [] rlState).heap.get? 0 =
        some { name := "a", numExecutors := 3, busyExecutors := 1, tags := ["t"] } ∧
      (["t"] : List String) ≠ [] := by
  decide

/-- Closed instance of `loadConfiguration_upsert_amended` on `rlState` with
a tagless node configuration. -/
theorem loadConfiguration_upsert_amended_witness :
    alookup (loadConfiguration [{ name := "a", executors := 3, tags := none }] [] rlState).nodes
        "a" = some 0 ∧
      (loadConfiguration [{ name := "a", executors := 3, tags := none }] [] rlState).heap.get? 0 =
        some (updatedNode { name := "a", executors := 3, tags := none }
          { name := "a", numExecutors := 2, busyExecutors := 1, tags := ["t"] }) :=
  loadConfiguration_upsert_amended rlState
    { name := "a", executors := 3, tags := none } [] 0
    { name := "a", numExecutors := 2, busyExecutors := 1, tags := ["t"] }
    (by decide) (by decide)

/-- Queued run of job `j1` (no tags registered, so it cannot start on a
tagged node). -/
def qiRun1 : Run :=
  { name := "j1", params := [], parentName := "", parentBuild := 0,
    reasonMsg := "", scripts := [], runDir := "", node := none, build := 0 }

/-- Queued run of job `j2` (tagged `x`). -/
def qiRun2 : Run :=
  { name := "j2", params := [], parentName := "", parentBuild := 0,
    reasonMsg := "", scripts := [], runDir := "", node := none, build := 0 }

/-- Concrete state: a single node tagged `x`, job `j1` untagged at the queue
head, job `j2` tagged `x` behind it at position 1. -/
def qiState : LState :=
  { homeDir := "",
    heap := [{ name := "a", numExecutors := 1, busyExecutors := 0, tags := ["x"] }],
    nodes := [("a", 0)], queuedJobs := [qiRun1, qiRun2], activeJobs := [],
    buildNums := [], jobTags := [("j2", ["x"])], rows := [], events := [] }

/-- C8 evaluation at the failing input: `j1` is skipped (tag mismatch) and
`j2` is admitted from queue position 1, yet its `job_started` event carries
`queueIndex = -1` — `std::distance(it, queuedJobs.begin())`, the negation of
the position — where the claim requires the position itself, 1. -/
theorem job_started_queueIndex_eval :
    (assignNewJobs fsAllOk qiState).events = [Event.job_started "j2" 1 (-1)] ∧
      (-1 : Int) ≠ 1 := by
  decide

/-- Concrete node and job for the admission-policy instance. -/
def polNode : Node :=
  { name := "a", numExecutors := 2, busyExecutors := 1, tags := ["x"] }

/-- Closed instance of `nodeCanQueue_correct`: job `j` tagged `x` on a
tagged node with a free executor. -/
theorem nodeCanQueue_correct_witness :
    nodeCanQueue [("j", ["x"])] polNode qRun = true ↔
      (polNode.busyExecutors < polNode.numExecutors ∧
        (polNode.tags = [] ∨
          ∃ t ∈ (alookup [("j", ["x"])] qRun.name).getD [], t ∈ polNode.tags)) :=
  nodeCanQueue_correct [("j", ["x"])] polNode qRun

/-- Closed instance of `handleRunTrace_drain_before_complete` on a two-step
run whose second step fails. -/
theorem handleRunTrace_drain_before_complete_witness :
    (∃ pre, handleRunTrace [⟨["hello"], 0⟩, ⟨["oops"], 1⟩] =
        pre ++ [RunEvent.completed] ∧ ∀ e ∈ pre, e ≠ RunEvent.completed) ∧
      ∀ i j b, (handleRunTrace [⟨["hello"], 0⟩, ⟨["oops"], 1⟩]).get? i =
          some RunEvent.completed →
        (handleRunTrace [⟨["hello"], 0⟩, ⟨["oops"], 1⟩]).get? j =
          some (RunEvent.logChunk b) → j < i :=
  handleRunTrace_drain_before_complete [⟨["hello"], 0⟩, ⟨["oops"], 1⟩]
